import Mathlib

set_option maxHeartbeats 1000000

namespace DiffDigest

/-! Shallow embedding of the diff-digest client core: the incremental
streamed-JSON field extractor and the local summary cache of
`src/app/page.tsx` and `src/lib/db.ts`.  Strings are modelled as
`List Char`; TS `string` record fields as `String`. -/

/-- One character of the JS regex character class `[^\"]` in
`/"developer_notes":"([^\"]*)/` (page.tsx line 211): true when the
character is not a double quote. -/
def notQuote (c : Char) : Bool := c != '"'

/-- `matchesAt pat s` is true when `pat` occurs at the start of `s`. -/
def matchesAt : List Char → List Char → Bool
  | [], _ => true
  | _ :: _, [] => false
  | p :: ps, c :: cs => p == c && matchesAt ps cs

/-- `extract pat s` mirrors `s.match(/pat([^\"]*)/)` of page.tsx lines
211-212: scan `s` left to right for the first occurrence of the literal
`pat`; on success capture the longest following run of non-quote
characters (no closing quote required), otherwise return `none`. -/
def extract (pat : List Char) : List Char → Option (List Char)
  | [] => none
  | c :: cs =>
      if matchesAt pat (c :: cs) then
        some (((c :: cs).drop pat.length).takeWhile notQuote)
      else extract pat cs

/-- The characters `developer_notes`. -/
def devCore : List Char :=
  ['d', 'e', 'v', 'e', 'l', 'o', 'p', 'e', 'r', '_', 'n', 'o', 't', 'e', 's']

/-- The characters `marketing_notes`. -/
def mktCore : List Char :=
  ['m', 'a', 'r', 'k', 'e', 't', 'i', 'n', 'g', '_', 'n', 'o', 't', 'e', 's']

/-- The literal part of the developer regex of page.tsx line 211. -/
def devPat : List Char := '"' :: (devCore ++ ['"', ':', '"'])

/-- The literal part of the marketing regex of page.tsx line 212. -/
def mktPat : List Char := '"' :: (mktCore ++ ['"', ':', '"'])

/-- The tail of the complete payload from the marketing field on. -/
def payloadTail (M : List Char) : List Char := mktPat ++ (M ++ ['"', '\x7d'])

/-- The complete valid payload
`\x7b"developer_notes":"D","marketing_notes":"M"\x7d` (with braces). -/
def payload (D M : List Char) : List Char :=
  '\x7b' :: (devPat ++ (D ++ ('"' :: (',' :: payloadTail M))))

/-- The cached record of `src/lib/db.ts` (interface `DiffEntity`): the
summary fields and their timestamp are optional. -/
structure DiffEntity where
  id : String
  description : String
  diff : String
  url : String
  fetchedAt : Nat
  summaryDeveloper : Option String
  summaryMarketing : Option String
  summaryUpdatedAt : Option Nat
deriving DecidableEq

/-- A partial field set for an update: `some v` sets the field, `none`
leaves it alone.  Mirrors the `changes` argument of a partial update. -/
structure DiffPatch where
  description : Option String := none
  diff : Option String := none
  url : Option String := none
  fetchedAt : Option Nat := none
  summaryDeveloper : Option String := none
  summaryMarketing : Option String := none
  summaryUpdatedAt : Option Nat := none
deriving DecidableEq

/-- Modelled from the spec: merging a partial field set into an existing
record (`updateFields(id, partialFields)` of spec §4.2; the Dexie
`Table.update` call itself is not under `src/`, only its declaration in
`src/lib/db.ts` and its callers in `src/app/page.tsx`).  Fields given in
the patch are replaced, all others are kept; the key is never changed. -/
def applyPatch (e : DiffEntity) (p : DiffPatch) : DiffEntity :=
  { id := e.id
    description := p.description.getD e.description
    diff := p.diff.getD e.diff
    url := p.url.getD e.url
    fetchedAt := p.fetchedAt.getD e.fetchedAt
    summaryDeveloper :=
      match p.summaryDeveloper with
      | some v => some v
      | none => e.summaryDeveloper
    summaryMarketing :=
      match p.summaryMarketing with
      | some v => some v
      | none => e.summaryMarketing
    summaryUpdatedAt :=
      match p.summaryUpdatedAt with
      | some v => some v
      | none => e.summaryUpdatedAt }

/-- The cache table keyed by `id` (`db.diffs`). -/
abbrev Cache : Type := List DiffEntity

/-- Modelled from the spec: `updateFields(id, partialFields)` merges the
given fields into the record for `id`; on a missing `id` it is a no-op
(spec §4.2: safe to call even if `id` does not exist; Dexie resolves
such an update with zero affected rows instead of throwing). -/
def updateFields (c : Cache) (i : String) (p : DiffPatch) : Cache :=
  c.map (fun x => if x.id == i then applyPatch x p else x)

/-- Modelled from the spec: insert-or-fully-replace of one record by
`id`, the per-record step of `upsertMany` (`db.diffs.bulkPut`). -/
def putOne (c : Cache) (e : DiffEntity) : Cache :=
  if c.any (fun x => x.id == e.id) then
    c.map (fun x => if x.id == e.id then e else x)
  else c ++ [e]

/-- Modelled from the spec: `upsertMany(records)` inserts or fully
replaces records by `id` (`db.diffs.bulkPut(entities)` in `fetchDiffs`,
page.tsx lines 130-138). -/
def upsertMany (c : Cache) (es : List DiffEntity) : Cache :=
  es.foldl putOne c

/-- Modelled from the spec: `getAll()` returns every stored record
(`db.diffs.toArray()` in the startup effect, page.tsx line 58). -/
def getAll (c : Cache) : List DiffEntity := c

/-- Look up the record stored for a given id. -/
def lookupId (c : Cache) (i : String) : Option DiffEntity :=
  c.find? (fun x => x.id == i)

/-- One record of the listing response as consumed by the page
(interface `DiffItem`, page.tsx lines 16-21). -/
structure DiffItem where
  id : String
  description : String
  diff : String
  url : String
deriving DecidableEq

/-- The listing response as consumed by the page (interface
`ApiResponse`, page.tsx lines 23-28): `data.diffs`, `data.nextPage`
(nullable), `data.currentPage`, `data.perPage`. -/
structure ApiResponse where
  diffs : List DiffItem
  nextPage : Option Int
  currentPage : Int
  perPage : Int
deriving DecidableEq

/-- A JSON value, the shape of `await response.json()`. -/
inductive Json where
  | null
  | str (s : String)
  | num (n : Int)
  | arr (items : List Json)
  | obj (fields : List (String × Json))

/-- Reading a named property of a parsed JSON object, as the TS code
does with `data.diffs`, `item.id`, etc. -/
def getField (j : Json) (k : String) : Option Json :=
  match j with
  | .obj fs => (fs.find? (fun p => p.1 == k)).map (fun p => p.2)
  | _ => none

def asString : Json → Option String
  | .str s => some s
  | _ => none

def asNullableInt : Json → Option (Option Int)
  | .null => some none
  | .num n => some (some n)
  | _ => none

def asInt : Json → Option Int
  | .num n => some n
  | _ => none

def asItems : Json → Option (List Json)
  | .arr xs => some xs
  | _ => none

/-- The record fields the program consumes from each element of
`data.diffs`: `id`, `description`, `diff`, `url` (page.tsx lines 16-21
and their uses at lines 169, 396-408). -/
def parseDiffItem (j : Json) : Option DiffItem := do
  let i ← (getField j "id").bind asString
  let de ← (getField j "description").bind asString
  let df ← (getField j "diff").bind asString
  let u ← (getField j "url").bind asString
  pure ⟨i, de, df, u⟩

def parseItems : List Json → Option (List DiffItem)
  | [] => some []
  | j :: rest => do
      let d ← parseDiffItem j
      let ds ← parseItems rest
      pure (d :: ds)

/-- The response fields the program consumes in `fetchDiffs` (page.tsx
lines 119-141): `diffs`, `nextPage`, `currentPage`, `perPage`. -/
def parseApiResponse (j : Json) : Option ApiResponse := do
  let arr ← (getField j "diffs").bind asItems
  let ds ← parseItems arr
  let np ← (getField j "nextPage").bind asNullableInt
  let cp ← (getField j "currentPage").bind asInt
  let pp ← (getField j "perPage").bind asInt
  pure ⟨ds, np, cp, pp⟩

/-- A well-formed record object using the field names of the code. -/
def itemJson (r : String × String × String × String) : Json :=
  .obj [("id", .str r.1), ("description", .str r.2.1),
    ("diff", .str r.2.2.1), ("url", .str r.2.2.2)]

def nullableJson : Option Int → Json
  | none => .null
  | some n => .num n

/-- A well-formed response object using the field names of the code. -/
def responseJson (recs : List (String × String × String × String))
    (np : Option Int) (cp pp : Int) : Json :=
  .obj [("diffs", .arr (recs.map itemJson)), ("nextPage", nullableJson np),
    ("currentPage", .num cp), ("perPage", .num pp)]

/-- Observable events of one generation request, in program order. -/
inductive Event where
  | read (chunk : List Char)
  | write (dev mkt : List Char) (t : Nat) (final : Bool)
  | abortEv
  | doneEv
deriving DecidableEq

/-- How the byte stream ends: the chunks delivered, and whether the
reader then raised an error (abort/timeout) instead of a clean end. -/
structure StreamOutcome where
  chunks : List (List Char)
  errored : Bool

/-- The per-request state: the extractor buffer and best values
(`accumulated`, `finalDeveloper`, `finalMarketing`), the surfaced UI
values (`generatedSummaries[diff.id]`), the cache, the clock, and the
event trace. -/
structure GenState where
  accumulated : List Char
  finalDeveloper : List Char
  finalMarketing : List Char
  uiDeveloper : List Char
  uiMarketing : List Char
  cache : Cache
  now : Nat
  trace : List Event

/-- Request start (page.tsx lines 153-156): the surfaced values for the
id are reset to empty strings before any chunk is processed. -/
def initGen (c : Cache) (t0 : Nat) : GenState :=
  { accumulated := [], finalDeveloper := [], finalMarketing := [],
    uiDeveloper := [], uiMarketing := [], cache := c, now := t0,
    trace := [] }

/-- The partial/final write payload (page.tsx lines 226-230 and
243-247): both summary fields are always written, with a timestamp. -/
def summaryPatch (dev mkt : List Char) (t : Nat) : DiffPatch :=
  { summaryDeveloper := some (String.mk dev),
    summaryMarketing := some (String.mk mkt),
    summaryUpdatedAt := some t }

/-- One iteration of the read loop (page.tsx lines 205-234): append the
chunk, re-match both regexes on the whole buffer, keep the previous best
on a non-match, surface `final || previous-ui || ""` and write both
surfaced fields to the cache. -/
def stepGen (i : String) (st : GenState) (chunk : List Char) : GenState :=
  let acc := st.accumulated ++ chunk
  let dev := (extract devPat acc).getD st.finalDeveloper
  let mkt := (extract mktPat acc).getD st.finalMarketing
  let uiDev := if dev = [] then st.uiDeveloper else dev
  let uiMkt := if mkt = [] then st.uiMarketing else mkt
  { accumulated := acc, finalDeveloper := dev, finalMarketing := mkt,
    uiDeveloper := uiDev, uiMarketing := uiMkt,
    cache := updateFields st.cache i (summaryPatch uiDev uiMkt st.now),
    now := st.now + 1,
    trace := st.trace ++ [Event.read chunk, Event.write uiDev uiMkt st.now false] }

/-- A whole request after a successful response: process every delivered
chunk, record how the stream ended, then perform the final authoritative
cache write of lines 242-250 (it runs whether the loop ended cleanly or
by a caught stream error). -/
def runGen (c : Cache) (i : String) (t0 : Nat) (so : StreamOutcome) :
    GenState :=
  let st := so.chunks.foldl (stepGen i) (initGen c t0)
  { st with
    cache := updateFields st.cache i
      (summaryPatch st.finalDeveloper st.finalMarketing st.now),
    now := st.now + 1,
    trace := st.trace ++
      [if so.errored then Event.abortEv else Event.doneEv,
        Event.write st.finalDeveloper st.finalMarketing st.now true] }

def isAbortEv : Event → Bool
  | .abortEv => true
  | _ => false

def isWriteEv : Event → Bool
  | .write _ _ _ _ => true
  | _ => false

/-- The events that happen strictly after the abort. -/
def afterAbort (tr : List Event) : List Event :=
  (tr.dropWhile (fun e => ! isAbortEv e)).drop 1

/-! ### Run invariants -/

/-- The per-field extractor invariant of a reachable state: the best
value is the current buffer's capture, or empty when the pattern has
never matched; and the surfaced UI value equals the best value. -/
def FieldInv (pat : List Char) (acc fin ui : List Char) : Prop :=
  (extract pat acc = some fin ∨ (extract pat acc = none ∧ fin = [])) ∧
    ui = fin

/-- Invariant of a reachable request state. -/
def GenInv (st : GenState) : Prop :=
  FieldInv devPat st.accumulated st.finalDeveloper st.uiDeveloper ∧
    FieldInv mktPat st.accumulated st.finalMarketing st.uiMarketing ∧
    (∀ e ∈ st.trace, isAbortEv e = false)

/-- Monotonicity of one field across one step of the loop, relating the
old buffer/best value to the grown buffer/new best value. -/
def FieldMono (pat acc fin acc' fin' : List Char) : Prop :=
  (extract pat acc' = none → fin' = fin) ∧
    (∀ cap, extract pat acc = some cap →
      ∃ cap', extract pat acc' = some cap' ∧ cap <+: cap' ∧ fin' = cap') ∧
    (fin ≠ [] → fin <+: fin')

/-- A sample cached record whose marketing note is already set. -/
def sampleEntity : DiffEntity :=
  ⟨"1", "desc", "difftext", "http", 0, none, some "y", none⟩

/-- A sample freshly fetched record with the same id and no notes. -/
def sampleNew : DiffEntity :=
  ⟨"1", "desc2", "difftext2", "http2", 1, none, none, none⟩

/-- A partial field set touching only the developer summary. -/
def devOnlyPatch : DiffPatch := { summaryDeveloper := some "x" }

/-- A response object shaped as the specification describes it. -/
def specShapedResponse : Json :=
  .obj [("items", .arr []), ("nextPageToken", .null),
    ("currentPage", .num 1), ("pageSize", .num 10)]

/-- A record object shaped as the specification describes it. -/
def specShapedItem : Json :=
  .obj [("id", .str "1"), ("description", .str "d"),
    ("diffText", .str "t"), ("sourceUrl", .str "u")]

/-! ### The claims -/

/-! ### Lemmas and claim theorems -/

lemma devPat_data : devPat = "\"developer_notes\":\"".data := by decide

lemma mktPat_data : mktPat = "\"marketing_notes\":\"".data := by decide

lemma payload_data (D M : List Char) :
    payload D M =
      "\x7b\"developer_notes\":\"".data ++ D ++
        "\",\"marketing_notes\":\"".data ++ M ++ "\"\x7d".data := by
  simp [payload, payloadTail, devPat, mktPat, devCore, mktCore]

/-! ### Basic facts about `matchesAt` and `extract` -/

lemma matchesAt_head_ne (p c : Char) (ps cs : List Char) (h : p ≠ c) :
    matchesAt (p :: ps) (c :: cs) = false := by
  have hb : (p == c) = false := beq_eq_false_iff_ne.mpr h
  simp [matchesAt, hb]

lemma matchesAt_two_ne (p q c d : Char) (ps cs : List Char) (h : q ≠ d) :
    matchesAt (p :: q :: ps) (c :: d :: cs) = false := by
  have hb : (q == d) = false := beq_eq_false_iff_ne.mpr h
  simp [matchesAt, hb]

lemma matchesAt_self (p t : List Char) : matchesAt p (p ++ t) = true := by
  induction p with
  | nil => rfl
  | cons c cs ih => simp [matchesAt, ih]

lemma matchesAt_length (p s : List Char) (h : matchesAt p s = true) :
    p.length ≤ s.length := by
  induction p generalizing s with
  | nil => simp
  | cons c cs ih =>
      cases s with
      | nil => simp [matchesAt] at h
      | cons d ds =>
          simp only [matchesAt, Bool.and_eq_true] at h
          simpa using ih ds h.2

lemma matchesAt_append_left (p s t : List Char) (h : p.length ≤ s.length) :
    matchesAt p (s ++ t) = matchesAt p s := by
  induction p generalizing s with
  | nil => simp [matchesAt]
  | cons c cs ih =>
      cases s with
      | nil => simp at h
      | cons d ds =>
          have h' : cs.length ≤ ds.length := by simpa using h
          simp only [List.cons_append, matchesAt, List.append_eq]
          rw [ih ds h']

lemma matchesAt_append_mono (p s t : List Char) (h : matchesAt p s = true) :
    matchesAt p (s ++ t) = true := by
  rw [matchesAt_append_left p s t (matchesAt_length p s h)]
  exact h

lemma extract_step (pat c cs) (h : matchesAt pat (c :: cs) = false) :
    extract pat (c :: cs) = extract pat cs := by
  simp [extract, h]

lemma extract_at_head (p t : List Char) (hp : p ≠ []) :
    extract p (p ++ t) = some (t.takeWhile notQuote) := by
  cases p with
  | nil => exact absurd rfl hp
  | cons c cs =>
      have hm : matchesAt (c :: cs) (c :: (cs ++ t)) = true := by
        simpa using matchesAt_self (c :: cs) t
      rw [List.cons_append]
      simp [extract, hm, List.drop_left]

lemma extract_some_length (pat s c : List Char) (h : extract pat s = some c) :
    pat.length ≤ s.length := by
  induction s with
  | nil => simp [extract] at h
  | cons d ds ih =>
      by_cases hm : matchesAt pat (d :: ds) = true
      · exact matchesAt_length _ _ hm
      · rw [extract_step pat d ds (by simpa using hm)] at h
        have := ih h
        simp only [List.length_cons]
        omega

/-- Skipping a quote-free segment: a pattern beginning with `"` cannot
start inside a run of non-quote characters. -/
lemma extract_quotefree (p u v : List Char) (hu : '"' ∉ u) :
    extract ('"' :: p) (u ++ v) = extract ('"' :: p) v := by
  induction u with
  | nil => simp
  | cons c cs ih =>
      simp only [List.mem_cons, not_or] at hu
      rw [List.cons_append,
        extract_step _ c _ (matchesAt_head_ne '"' c _ _ hu.1),
        ih hu.2]

lemma takeWhile_quotefree (u v : List Char) (hu : '"' ∉ u) :
    (u ++ ('"' :: v)).takeWhile notQuote = u := by
  induction u with
  | nil =>
      rw [List.nil_append, List.takeWhile_cons, if_neg (by simp [notQuote])]
  | cons c cs ih =>
      simp only [List.mem_cons, not_or] at hu
      have hcne : c ≠ '"' := fun h => hu.1 h.symm
      have hc : notQuote c = true := by simp [notQuote, hcne]
      rw [List.cons_append, List.takeWhile_cons, if_pos hc, ih hu.2]

lemma takeWhile_grow (q : Char → Bool) (u v : List Char) :
    u.takeWhile q <+: (u ++ v).takeWhile q := by
  induction u with
  | nil => exact ⟨(v.takeWhile q), by simp⟩
  | cons c cs ih =>
      by_cases hc : q c = true
      · obtain ⟨r, hr⟩ := ih
        refine ⟨r, ?_⟩
        rw [List.cons_append, List.takeWhile_cons, if_pos hc,
          List.takeWhile_cons, if_pos hc, List.cons_append, hr]
      · have hcf : q c = false := by simpa using hc
        refine ⟨[], ?_⟩
        rw [List.cons_append, List.takeWhile_cons, if_neg (by simp [hcf]),
          List.takeWhile_cons, if_neg (by simp [hcf]), List.append_nil]

/-- Growing the buffer can only extend a previously found capture: the
first occurrence position of the pattern is unchanged and the greedy
non-quote capture can only get longer. -/
lemma extract_extend (pat b s c : List Char) (h : extract pat b = some c) :
    ∃ c', extract pat (b ++ s) = some c' ∧ c <+: c' := by
  induction b with
  | nil => simp [extract] at h
  | cons x bs ih =>
      by_cases hm : matchesAt pat (x :: bs) = true
      · have hlen : pat.length ≤ (x :: bs).length := matchesAt_length _ _ hm
        have hm' : matchesAt pat ((x :: bs) ++ s) = true :=
          matchesAt_append_mono _ _ _ hm
        have hdrop : ((x :: bs) ++ s).drop pat.length =
            ((x :: bs).drop pat.length) ++ s :=
          List.drop_append_of_le_length hlen
        have hval : extract pat (x :: bs) =
            some (((x :: bs).drop pat.length).takeWhile notQuote) := by
          simp [extract, hm]
        rw [hval] at h
        refine ⟨(((x :: bs).drop pat.length ++ s).takeWhile notQuote), ?_, ?_⟩
        · have hm'' : matchesAt pat (x :: (bs ++ s)) = true := by
            simpa using hm'
          have hdrop' : (x :: (bs ++ s)).drop pat.length =
              ((x :: bs).drop pat.length) ++ s := by
            simpa using hdrop
          rw [List.cons_append]
          rw [show extract pat (x :: (bs ++ s)) =
              some (((x :: (bs ++ s)).drop pat.length).takeWhile notQuote) from by
            simp [extract, hm'']]
          rw [hdrop']
        · rw [← Option.some_inj.mp h]
          exact takeWhile_grow notQuote _ s
      · have hmf : matchesAt pat (x :: bs) = false := by simpa using hm
        rw [extract_step pat x bs hmf] at h
        have hlen : pat.length ≤ bs.length := extract_some_length pat bs c h
        have hmf' : matchesAt pat ((x :: bs) ++ s) = false := by
          rw [List.cons_append,
            show x :: (bs ++ s) = (x :: bs) ++ s from rfl,
            matchesAt_append_left pat (x :: bs) s (by simp; omega)]
          exact hmf
        obtain ⟨c', hc', hpre⟩ := ih h
        refine ⟨c', ?_, hpre⟩
        rw [List.cons_append, extract_step pat x (bs ++ s) (by
          simpa [List.cons_append] using hmf'), hc']

/-! ### Extraction on the complete payload -/

/-- No occurrence of a quote-free pattern core followed by `":` can start
at the opening quote of a quote-free field value followed by `",`: the
first mismatch is forced at or before the closing quote of the value. -/
lemma matchesAt_core_value (core D x y : List Char) (hc : '"' ∉ core)
    (hD : '"' ∉ D) :
    matchesAt (core ++ ('"' :: (':' :: x))) (D ++ ('"' :: (',' :: y))) =
      false := by
  induction core generalizing D with
  | nil =>
      cases D with
      | nil =>
          simp only [List.nil_append]
          exact matchesAt_two_ne '"' ':' '"' ',' x y (by decide)
      | cons d D' =>
          simp only [List.nil_append, List.cons_append]
          have hd : d ≠ '"' := by
            simp only [List.mem_cons, not_or] at hD
            exact fun h => hD.1 h.symm
          exact matchesAt_head_ne '"' d _ _ (fun h => hd h.symm)
  | cons a core' ih =>
      have ha : '"' ≠ a := by
        simp only [List.mem_cons, not_or] at hc
        exact hc.1
      cases D with
      | nil =>
          simp only [List.cons_append, List.nil_append]
          exact matchesAt_head_ne a '"' _ _ (fun h => ha h.symm)
      | cons d D' =>
          have hD' : '"' ∉ D' := by
            simp only [List.mem_cons, not_or] at hD
            exact hD.2
          have hc' : '"' ∉ core' := by
            simp only [List.mem_cons, not_or] at hc
            exact hc.2
          simp only [List.cons_append, matchesAt, List.append_eq]
          rw [ih D' hc' hD']
          exact Bool.and_false _

/-- On the complete payload the developer regex captures exactly `D`. -/
lemma extract_dev_payload (D M : List Char) (hD : '"' ∉ D) :
    extract devPat (payload D M) = some D := by
  have h1 : matchesAt devPat ('\x7b' :: (devPat ++ (D ++ ('"' :: (',' ::
      payloadTail M))))) = false := by
    rw [devPat]
    exact matchesAt_head_ne '"' '\x7b' _ _ (by decide)
  rw [payload, extract_step _ _ _ h1,
    extract_at_head devPat _ (by rw [devPat]; simp)]
  rw [takeWhile_quotefree D (',' :: payloadTail M) hD]

/-- On the complete payload the marketing regex captures exactly `M`. -/
lemma extract_mkt_payload (D M : List Char) (hD : '"' ∉ D) (hM : '"' ∉ M) :
    extract mktPat (payload D M) = some M := by
  have hmkt : mktPat = '"' :: (mktCore ++ ['"', ':', '"']) := rfl
  -- step over the opening brace
  rw [payload, extract_step _ _ _ (by
    rw [hmkt]; exact matchesAt_head_ne '"' '\x7b' _ _ (by decide))]
  -- step over the opening quote of the developer field name
  rw [show devPat ++ (D ++ ('"' :: (',' :: payloadTail M))) =
      '"' :: ('d' :: (['e', 'v', 'e', 'l', 'o', 'p', 'e', 'r', '_', 'n',
        'o', 't', 'e', 's'] ++ (['"', ':', '"'] ++ (D ++ ('"' :: (',' ::
        payloadTail M)))))) from by simp [devPat, devCore]]
  rw [extract_step _ _ _ (by
    rw [hmkt, show mktCore ++ ['"', ':', '"'] =
      'm' :: (['a', 'r', 'k', 'e', 't', 'i', 'n', 'g', '_', 'n', 'o', 't',
        'e', 's'] ++ ['"', ':', '"']) from by simp [mktCore]]
    exact matchesAt_two_ne '"' 'm' '"' 'd' _ _ (by decide))]
  -- skip the quote-free field-name characters
  rw [show 'd' :: (['e', 'v', 'e', 'l', 'o', 'p', 'e', 'r', '_', 'n', 'o',
      't', 'e', 's'] ++ (['"', ':', '"'] ++ (D ++ ('"' :: (',' ::
      payloadTail M))))) =
      ['d', 'e', 'v', 'e', 'l', 'o', 'p', 'e', 'r', '_', 'n', 'o', 't',
        'e', 's'] ++ ('"' :: (':' :: ('"' :: (D ++ ('"' :: (',' ::
        payloadTail M)))))) from by simp]
  rw [hmkt, extract_quotefree _ _ _ (by decide), ← hmkt]
  -- step over the quote before the colon
  rw [extract_step _ _ _ (by
    rw [hmkt, show mktCore ++ ['"', ':', '"'] =
      'm' :: (['a', 'r', 'k', 'e', 't', 'i', 'n', 'g', '_', 'n', 'o', 't',
        'e', 's'] ++ ['"', ':', '"']) from by simp [mktCore]]
    exact matchesAt_two_ne '"' 'm' '"' ':' _ _ (by decide))]
  -- step over the colon
  rw [extract_step _ _ _ (by
    rw [hmkt]; exact matchesAt_head_ne '"' ':' _ _ (by decide))]
  -- the opening quote of the developer value: blocked by matchesAt_core_value
  rw [extract_step _ _ _ (by
    rw [hmkt]
    simp only [matchesAt, beq_self_eq_true, Bool.true_and]
    rw [show mktCore ++ ['"', ':', '"'] =
      mktCore ++ ('"' :: (':' :: ['"'])) from rfl,
      show D ++ ('"' :: (',' :: payloadTail M)) =
      D ++ ('"' :: (',' :: payloadTail M)) from rfl]
    exact matchesAt_core_value mktCore D ['"'] (payloadTail M)
      (by decide) hD)]
  -- skip the quote-free developer value
  rw [hmkt, extract_quotefree _ _ _ hD, ← hmkt]
  -- the closing quote of the developer value
  rw [extract_step _ _ _ (by
    rw [hmkt, show mktCore ++ ['"', ':', '"'] =
      'm' :: (['a', 'r', 'k', 'e', 't', 'i', 'n', 'g', '_', 'n', 'o', 't',
        'e', 's'] ++ ['"', ':', '"']) from by simp [mktCore]]
    exact matchesAt_two_ne '"' 'm' '"' ',' _ _ (by decide))]
  -- the comma
  rw [extract_step _ _ _ (by
    rw [hmkt]; exact matchesAt_head_ne '"' ',' _ _ (by decide))]
  -- the marketing pattern itself
  rw [payloadTail, extract_at_head mktPat _ (by rw [hmkt]; simp)]
  rw [show M ++ ['"', '\x7d'] = M ++ ('"' :: ['\x7d']) from rfl,
    takeWhile_quotefree M ['\x7d'] hM]

/-! ### The local summary cache -/

lemma applyPatch_id (e : DiffEntity) (p : DiffPatch) :
    (applyPatch e p).id = e.id := rfl

lemma lookupId_updateFields (c : Cache) (i : String) (p : DiffPatch)
    (e : DiffEntity) (h : lookupId c i = some e) :
    lookupId (updateFields c i p) i = some (applyPatch e p) := by
  induction c with
  | nil => simp [lookupId, List.find?] at h
  | cons x t ih =>
      by_cases hx : (x.id == i) = true
      · have hxe : x.id = i := beq_iff_eq.mp hx
        have hex : x = e := by
          have := h
          rw [show lookupId (x :: t) i = some x from by
            simp [lookupId, List.find?, hx]] at this
          exact Option.some_inj.mp this
        rw [show updateFields (x :: t) i p =
            applyPatch x p :: updateFields t i p from by
          simp [updateFields, hxe]]
        rw [show lookupId (applyPatch x p :: updateFields t i p) i =
            some (applyPatch x p) from by
          simp [lookupId, List.find?, applyPatch_id, hxe]]
        rw [hex]
      · have hxe : ¬ x.id = i := by simpa using hx
        have hxf : (x.id == i) = false := by simpa using hx
        have h' : lookupId t i = some e := by
          have := h
          rw [show lookupId (x :: t) i = lookupId t i from by
            simp [lookupId, List.find?, hxf]] at this
          exact this
        rw [show updateFields (x :: t) i p = x :: updateFields t i p from by
          simp [updateFields, hxe]]
        rw [show lookupId (x :: updateFields t i p) i =
            lookupId (updateFields t i p) i from by
          simp [lookupId, List.find?, hxf]]
        exact ih h'

lemma mem_updateFields_of_ne (c : Cache) (i : String) (p : DiffPatch)
    (f : DiffEntity) (h : f ∈ c) (hne : f.id ≠ i) : f ∈ updateFields c i p := by
  exact List.mem_map.mpr ⟨f, h, by simp [hne]⟩

lemma updateFields_missing (c : Cache) (i : String) (p : DiffPatch)
    (h : ∀ e ∈ c, e.id ≠ i) : updateFields c i p = c := by
  have : ∀ x ∈ c, (fun y : DiffEntity =>
      if y.id == i then applyPatch y p else y) x = (fun y : DiffEntity => y) x := by
    intro x hx
    simp [h x hx]
  rw [updateFields, List.map_congr_left this]
  simp

lemma mem_putOne_self (c : Cache) (e : DiffEntity) : e ∈ putOne c e := by
  by_cases hany : c.any (fun x => x.id == e.id) = true
  · rw [putOne, if_pos hany]
    obtain ⟨x, hx, hpx⟩ := List.any_eq_true.mp hany
    have hxe : x.id = e.id := beq_iff_eq.mp hpx
    exact List.mem_map.mpr ⟨x, hx, by simp [hxe]⟩
  · rw [putOne, if_neg hany]
    simp

lemma mem_putOne_of_ne (c : Cache) (e f : DiffEntity) (h : f ∈ c)
    (hne : f.id ≠ e.id) : f ∈ putOne c e := by
  by_cases hany : c.any (fun x => x.id == e.id) = true
  · rw [putOne, if_pos hany]
    exact List.mem_map.mpr ⟨f, h, by simp [hne]⟩
  · rw [putOne, if_neg hany]
    simp [h]

lemma mem_of_mem_putOne (c : Cache) (e f : DiffEntity) (h : f ∈ putOne c e) :
    f = e ∨ (f ∈ c ∧ f.id ≠ e.id) := by
  by_cases hany : c.any (fun x => x.id == e.id) = true
  · rw [putOne, if_pos hany] at h
    obtain ⟨x, hx, hfx⟩ := List.mem_map.mp h
    by_cases hxe : x.id = e.id
    · left
      rw [← hfx]
      simp [hxe]
    · right
      rw [← hfx]
      simp only [hxe, if_neg, beq_iff_eq]
      exact ⟨by simpa [hxe] using hx, by simp [hxe]⟩
  · rw [putOne, if_neg hany] at h
    rcases List.mem_append.mp h with hc | he
    · right
      refine ⟨hc, ?_⟩
      have hall : ∀ x ∈ c, ¬ x.id = e.id := by simpa using hany
      exact hall f hc
    · left
      simpa using he

lemma mem_upsertMany_keep (c : Cache) (es : List DiffEntity) (f : DiffEntity)
    (h : f ∈ c) (hid : ∀ e ∈ es, f.id ≠ e.id) : f ∈ upsertMany c es := by
  induction es generalizing c with
  | nil => exact h
  | cons e es' ih =>
      exact ih (putOne c e)
        (mem_putOne_of_ne c e f h (hid e (by simp)))
        (fun e' he' => hid e' (by simp [he']))

lemma mem_upsertMany_self (c : Cache) (es : List DiffEntity)
    (hnd : (es.map (fun e => e.id)).Nodup) (e : DiffEntity) (he : e ∈ es) :
    e ∈ upsertMany c es := by
  induction es generalizing c with
  | nil => simp at he
  | cons a es' ih =>
      rcases List.mem_cons.mp he with rfl | he'
      · refine mem_upsertMany_keep (putOne c e) es' e (mem_putOne_self c e) ?_
        intro e' he'
        have : e.id ∉ es'.map (fun x => x.id) := by
          have := hnd
          simp only [List.map_cons, List.nodup_cons] at this
          exact this.1
        intro hcontra
        exact this (List.mem_map.mpr ⟨e', he', hcontra.symm⟩)
      · have hnd' : (es'.map (fun x => x.id)).Nodup := by
          have := hnd
          simp only [List.map_cons, List.nodup_cons] at this
          exact this.2
        exact ih (putOne c a) hnd' he'

lemma mem_of_mem_upsertMany (c : Cache) (es : List DiffEntity)
    (f : DiffEntity) (h : f ∈ upsertMany c es) :
    f ∈ es ∨ (f ∈ c ∧ f.id ∉ es.map (fun e => e.id)) := by
  induction es generalizing c with
  | nil =>
      right
      exact ⟨h, by simp⟩
  | cons e es' ih =>
      rcases ih (putOne c e) h with hes' | ⟨hput, hnotin⟩
      · left
        exact List.mem_cons.mpr (Or.inr hes')
      · rcases mem_of_mem_putOne c e f hput with rfl | ⟨hc, hne⟩
        · left
          simp
        · right
          refine ⟨hc, ?_⟩
          simp only [List.map_cons, List.mem_cons, not_or]
          exact ⟨hne, hnotin⟩

/-! ### The paginated listing response -/

lemma parseDiffItem_itemJson (r : String × String × String × String) :
    parseDiffItem (itemJson r) = some ⟨r.1, r.2.1, r.2.2.1, r.2.2.2⟩ := by
  rfl

lemma parseItems_map (recs : List (String × String × String × String)) :
    parseItems (recs.map itemJson) =
      some (recs.map (fun r => ⟨r.1, r.2.1, r.2.2.1, r.2.2.2⟩)) := by
  induction recs with
  | nil => rfl
  | cons r rest ih =>
      simp only [List.map_cons, parseItems, parseDiffItem_itemJson, ih,
        Option.bind_eq_bind, Option.some_bind]
      rfl

/-! ### One generation request (`fetchAIGeneratedDiff`, page.tsx 152-253)

The part after a successful response: the read loop (lines 204-234), the
catch of a mid-stream error (lines 235-240) and the final cache write
(lines 242-250).  Timestamps (`Date.now()`) are modelled by a counter
that advances at every write. -/

lemma fieldInv_step (pat acc fin ui chunk : List Char)
    (h : FieldInv pat acc fin ui) :
    FieldInv pat (acc ++ chunk) ((extract pat (acc ++ chunk)).getD fin)
      (if (extract pat (acc ++ chunk)).getD fin = [] then ui
        else (extract pat (acc ++ chunk)).getD fin) := by
  obtain ⟨hbest, hui⟩ := h
  cases hx : extract pat (acc ++ chunk) with
  | some c =>
      refine ⟨Or.inl (by simp [hx]), ?_⟩
      by_cases hc : c = []
      · have hfin : fin = [] := by
          rcases hbest with hsome | ⟨hnone, hfin⟩
          · obtain ⟨c', hc', hpre⟩ := extract_extend pat acc chunk fin hsome
            rw [hx] at hc'
            have hcc : c' = c := Option.some_inj.mp hc'.symm
            rw [hcc, hc] at hpre
            simpa using hpre
          · exact hfin
        simp [hc, hui, hfin]
      · simp [hx, hc]
  | none =>
      rcases hbest with hsome | ⟨hnone, hfin⟩
      · obtain ⟨c', hc', hpre⟩ := extract_extend pat acc chunk fin hsome
        rw [hx] at hc'
        exact absurd hc' (by simp)
      · subst hfin
        exact ⟨Or.inr ⟨hx, by simp [hx]⟩, by simp [hx, hui]⟩

lemma genInv_init (c : Cache) (t0 : Nat) : GenInv (initGen c t0) := by
  refine ⟨⟨Or.inr ⟨rfl, rfl⟩, rfl⟩, ⟨Or.inr ⟨rfl, rfl⟩, rfl⟩, ?_⟩
  intro e he
  simp [initGen] at he

lemma genInv_step (i : String) (st : GenState) (chunk : List Char)
    (h : GenInv st) : GenInv (stepGen i st chunk) := by
  obtain ⟨hdev, hmkt, htr⟩ := h
  refine ⟨?_, ?_, ?_⟩
  · exact fieldInv_step devPat st.accumulated st.finalDeveloper
      st.uiDeveloper chunk hdev
  · exact fieldInv_step mktPat st.accumulated st.finalMarketing
      st.uiMarketing chunk hmkt
  · intro e he
    rcases List.mem_append.mp he with h1 | h2
    · exact htr e h1
    · rcases List.mem_cons.mp h2 with rfl | h3
      · rfl
      · rcases List.mem_singleton.mp h3 with rfl
        rfl

lemma genInv_fold (i : String) (chunks : List (List Char)) (st : GenState)
    (h : GenInv st) : GenInv (chunks.foldl (stepGen i) st) := by
  induction chunks generalizing st with
  | nil => exact h
  | cons ch rest ih => exact ih (stepGen i st ch) (genInv_step i st ch h)

lemma genAcc_fold (i : String) (chunks : List (List Char)) (st : GenState) :
    (chunks.foldl (stepGen i) st).accumulated =
      st.accumulated ++ chunks.flatten := by
  induction chunks generalizing st with
  | nil => simp
  | cons ch rest ih =>
      rw [List.foldl_cons, ih]
      simp [stepGen, List.append_assoc]

lemma dropWhile_notAbort_append (l r : List Event)
    (h : ∀ e ∈ l, isAbortEv e = false) :
    (l ++ r).dropWhile (fun e => ! isAbortEv e) =
      r.dropWhile (fun e => ! isAbortEv e) := by
  induction l with
  | nil => simp
  | cons x t ih =>
      have hx : (! isAbortEv x) = true := by simp [h x (by simp)]
      rw [List.cons_append, List.dropWhile_cons, if_pos hx]
      exact ih (fun e he => h e (by simp [he]))

lemma fieldMono_of_inv (pat acc fin ui chunk : List Char)
    (h : FieldInv pat acc fin ui) :
    FieldMono pat acc fin (acc ++ chunk)
      ((extract pat (acc ++ chunk)).getD fin) := by
  obtain ⟨hbest, hui⟩ := h
  refine ⟨?_, ?_, ?_⟩
  · intro hn
    simp [hn]
  · intro cap hcap
    have hfin : extract pat acc = some fin := by
      rcases hbest with hsome | ⟨hnone, hfe⟩
      · exact hsome
      · rw [hcap] at hnone
        exact absurd hnone (by simp)
    have hcf : cap = fin := by
      rw [hfin] at hcap
      exact (Option.some_inj.mp hcap).symm
    obtain ⟨cap', hc', hpre⟩ := extract_extend pat acc chunk fin hfin
    exact ⟨cap', hc', by rw [hcf]; exact hpre, by simp [hc']⟩
  · intro hne
    have hfin : extract pat acc = some fin := by
      rcases hbest with hsome | ⟨hnone, hfe⟩
      · exact hsome
      · exact absurd hfe hne
    obtain ⟨cap', hc', hpre⟩ := extract_extend pat acc chunk fin hfin
    rw [show (extract pat (acc ++ chunk)).getD fin = cap' from by simp [hc']]
    exact hpre

/-- Claim C1: for every pair of double-quote-free strings D and M and
every way of splitting the complete payload
`\x7b"developer_notes":"D","marketing_notes":"M"\x7d` into chunks,
feeding the chunks in order to the extractor loop yields final best
values exactly D and M. -/
theorem extractor_complete_payload (c : Cache) (i : String) (t0 : Nat)
    (D M : List Char) (chunks : List (List Char))
    (hD : '"' ∉ D) (hM : '"' ∉ M)
    (hchunks : chunks.flatten = payload D M) :
    (runGen c i t0 ⟨chunks, false⟩).finalDeveloper = D ∧
      (runGen c i t0 ⟨chunks, false⟩).finalMarketing = M := by
  rcases List.eq_nil_or_concat chunks with rfl | ⟨L, b, rfl⟩
  · rw [List.flatten_nil] at hchunks
    exact absurd hchunks.symm (by simp [payload])
  · rw [List.concat_eq_append] at hchunks ⊢
    have hst : ((L ++ [b]).foldl (stepGen i) (initGen c t0)) =
        stepGen i (L.foldl (stepGen i) (initGen c t0)) b := by
      rw [List.foldl_append, List.foldl_cons, List.foldl_nil]
    have hacc : (L.foldl (stepGen i) (initGen c t0)).accumulated ++ b =
        payload D M := by
      have h2 := genAcc_fold i (L ++ [b]) (initGen c t0)
      rw [hst, hchunks] at h2
      have h3 : (stepGen i (L.foldl (stepGen i) (initGen c t0)) b).accumulated =
          (L.foldl (stepGen i) (initGen c t0)).accumulated ++ b := rfl
      rw [h3] at h2
      simpa [initGen] using h2
    constructor
    · show ((L ++ [b]).foldl (stepGen i) (initGen c t0)).finalDeveloper = D
      rw [hst]
      show (extract devPat
          ((L.foldl (stepGen i) (initGen c t0)).accumulated ++ b)).getD
          (L.foldl (stepGen i) (initGen c t0)).finalDeveloper = D
      rw [hacc, extract_dev_payload D M hD]
      rfl
    · show ((L ++ [b]).foldl (stepGen i) (initGen c t0)).finalMarketing = M
      rw [hst]
      show (extract mktPat
          ((L.foldl (stepGen i) (initGen c t0)).accumulated ++ b)).getD
          (L.foldl (stepGen i) (initGen c t0)).finalMarketing = M
      rw [hacc, extract_mkt_payload D M hD hM]
      rfl

/-- Witness for C1: a concrete two-chunk split of the payload with
D = `Fix` and M = `Nice`. -/
theorem extractor_complete_payload_witness :
    (runGen [] "1" 0 ⟨["\x7b\"developer_no".data,
      "tes\":\"Fix\",\"marketing_notes\":\"Nice\"\x7d".data], false⟩).finalDeveloper =
      "Fix".data ∧
    (runGen [] "1" 0 ⟨["\x7b\"developer_no".data,
      "tes\":\"Fix\",\"marketing_notes\":\"Nice\"\x7d".data], false⟩).finalMarketing =
      "Nice".data :=
  extractor_complete_payload [] "1" 0 "Fix".data "Nice".data
    ["\x7b\"developer_no".data,
      "tes\":\"Fix\",\"marketing_notes\":\"Nice\"\x7d".data]
    (by decide) (by decide) (by decide)

/-- Claim C2 counterexample: a request aborted mid-stream (the reader
errors after one chunk) still performs a cache write after the abort:
the final write of page.tsx lines 242-250 runs on the error path too. -/
theorem abort_write_occurs_cex :
    (afterAbort (runGen [] "1" 0 ⟨[['x']], true⟩).trace).any isWriteEv =
      true := by decide

/-- Claim C2 (amended): when the stream errors mid-request, exactly one
cache write happens after the abort - the final write, which stores the
same summary values the last partial write surfaced (the UI values equal
the best values) under a fresh timestamp; already-written partial values
are thus preserved in content. -/
theorem abort_final_write (c : Cache) (i : String) (t0 : Nat)
    (chunks : List (List Char)) :
    afterAbort (runGen c i t0 ⟨chunks, true⟩).trace =
      [Event.write (chunks.foldl (stepGen i) (initGen c t0)).finalDeveloper
        (chunks.foldl (stepGen i) (initGen c t0)).finalMarketing
        (chunks.foldl (stepGen i) (initGen c t0)).now true] ∧
    (runGen c i t0 ⟨chunks, true⟩).cache =
      updateFields (chunks.foldl (stepGen i) (initGen c t0)).cache i
        (summaryPatch (chunks.foldl (stepGen i) (initGen c t0)).finalDeveloper
          (chunks.foldl (stepGen i) (initGen c t0)).finalMarketing
          (chunks.foldl (stepGen i) (initGen c t0)).now) ∧
    (chunks.foldl (stepGen i) (initGen c t0)).uiDeveloper =
      (chunks.foldl (stepGen i) (initGen c t0)).finalDeveloper ∧
    (chunks.foldl (stepGen i) (initGen c t0)).uiMarketing =
      (chunks.foldl (stepGen i) (initGen c t0)).finalMarketing := by
  have hinv := genInv_fold i chunks (initGen c t0) (genInv_init c t0)
  refine ⟨?_, rfl, hinv.1.2, hinv.2.1.2⟩
  have htr : (runGen c i t0 ⟨chunks, true⟩).trace =
      (chunks.foldl (stepGen i) (initGen c t0)).trace ++
        [Event.abortEv,
          Event.write (chunks.foldl (stepGen i) (initGen c t0)).finalDeveloper
            (chunks.foldl (stepGen i) (initGen c t0)).finalMarketing
            (chunks.foldl (stepGen i) (initGen c t0)).now true] := rfl
  rw [htr, afterAbort,
    dropWhile_notAbort_append _ _ hinv.2.2,
    List.dropWhile_cons]
  simp [isAbortEv]

/-- Claim C3: per-field monotonicity of the surfaced best value along
one loop iteration of a reachable state: a non-match retains the
previous best value, a previous capture is extended (the old capture is
a prefix of the new one and the new one is adopted), and a non-empty
best value never regresses (it is a prefix of the new best value). -/
theorem extractor_monotone (c : Cache) (i : String) (t0 : Nat)
    (chunks : List (List Char)) (chunk : List Char) :
    FieldMono devPat
      (chunks.foldl (stepGen i) (initGen c t0)).accumulated
      (chunks.foldl (stepGen i) (initGen c t0)).finalDeveloper
      (stepGen i (chunks.foldl (stepGen i) (initGen c t0)) chunk).accumulated
      (stepGen i (chunks.foldl (stepGen i) (initGen c t0)) chunk).finalDeveloper ∧
    FieldMono mktPat
      (chunks.foldl (stepGen i) (initGen c t0)).accumulated
      (chunks.foldl (stepGen i) (initGen c t0)).finalMarketing
      (stepGen i (chunks.foldl (stepGen i) (initGen c t0)) chunk).accumulated
      (stepGen i (chunks.foldl (stepGen i) (initGen c t0)) chunk).finalMarketing := by
  have hinv := genInv_fold i chunks (initGen c t0) (genInv_init c t0)
  exact ⟨fieldMono_of_inv devPat _ _ _ chunk hinv.1,
    fieldMono_of_inv mktPat _ _ _ chunk hinv.2.1⟩

/-- Witness for C3: after matching `Fix` the best developer value grows
monotonically (prefix order) when the value is extended by a chunk. -/
theorem extractor_monotone_witness :
    (List.foldl (stepGen "1") (initGen [] 0)
      ["\"developer_notes\":\"Fix".data]).finalDeveloper <+:
    (stepGen "1" (List.foldl (stepGen "1") (initGen [] 0)
      ["\"developer_notes\":\"Fix".data]) " bug".data).finalDeveloper :=
  (extractor_monotone [] "1" 0 ["\"developer_notes\":\"Fix".data]
    " bug".data).1.2.2 (by decide)

/-- Claim C4: the capture is the literal run of characters from the
field's opening quote to the first double quote, with no JSON-escape
decoding: a value containing backslash-quote is cut at that quote and
the backslash stays in the surfaced value as raw text. -/
theorem escaped_quote_capture (D1 D2 : List Char) (hD1 : '"' ∉ D1) :
    extract devPat
      ('\x7b' :: (devPat ++ (D1 ++ ('\\' :: ('"' :: D2))))) =
      some (D1 ++ ['\\']) := by
  rw [extract_step _ _ _ (by
    rw [devPat]
    exact matchesAt_head_ne '"' '\x7b' _ _ (by decide))]
  rw [extract_at_head devPat _ (by rw [devPat]; simp)]
  rw [show D1 ++ ('\\' :: ('"' :: D2)) = (D1 ++ ['\\']) ++ ('"' :: D2) from by
    simp]
  rw [takeWhile_quotefree (D1 ++ ['\\']) D2 (by
    simp only [List.mem_append, List.mem_singleton, not_or]
    exact ⟨hD1, by decide⟩)]

/-- Witness for C4: a value `a\"b` is surfaced as `a\` - cut at the
escaped quote, backslash kept raw. -/
theorem escaped_quote_capture_witness :
    extract devPat
      ('\x7b' :: (devPat ++ (['a'] ++ ('\\' :: ('"' :: ['b']))))) =
      some (['a'] ++ ['\\']) :=
  escaped_quote_capture ['a'] ['b'] (by decide)

/-- Claim C5: a stream that delivers no chunks and ends at once leaves
both best values empty, the run is total (no exception is modelled or
needed), and the final cache write stores empty strings in both summary
fields together with the fresh timestamp. -/
theorem empty_stream_run (c : Cache) (i : String) (t0 : Nat)
    (e : DiffEntity) (h : lookupId c i = some e) :
    (runGen c i t0 ⟨[], false⟩).finalDeveloper = [] ∧
    (runGen c i t0 ⟨[], false⟩).finalMarketing = [] ∧
    (runGen c i t0 ⟨[], false⟩).trace =
      [Event.doneEv, Event.write [] [] t0 true] ∧
    lookupId (runGen c i t0 ⟨[], false⟩).cache i =
      some { e with
        summaryDeveloper := some ""
        summaryMarketing := some ""
        summaryUpdatedAt := some t0 } := by
  refine ⟨rfl, rfl, rfl, ?_⟩
  have h2 := lookupId_updateFields c i (summaryPatch [] [] t0) e h
  rw [show (runGen c i t0 ⟨[], false⟩).cache =
    updateFields c i (summaryPatch [] [] t0) from rfl]
  rw [h2]
  rfl

/-- Witness for C5: the empty stream on a concrete one-record cache. -/
theorem empty_stream_run_witness :
    (runGen [sampleEntity] "1" 7 ⟨[], false⟩).finalDeveloper = [] ∧
    (runGen [sampleEntity] "1" 7 ⟨[], false⟩).finalMarketing = [] ∧
    (runGen [sampleEntity] "1" 7 ⟨[], false⟩).trace =
      [Event.doneEv, Event.write [] [] 7 true] ∧
    lookupId (runGen [sampleEntity] "1" 7 ⟨[], false⟩).cache "1" =
      some { sampleEntity with
        summaryDeveloper := some ""
        summaryMarketing := some ""
        summaryUpdatedAt := some 7 } :=
  empty_stream_run [sampleEntity] "1" 7 sampleEntity (by decide)

/-- Claim C6: `updateFields` merges a partial field set: the record for
the id becomes `applyPatch` of the old record, every field not given in
the patch is kept (in particular a marketing note `y` survives a patch
that only sets the developer note to `x`), given fields are replaced,
and records with other ids are untouched. -/
theorem updateFields_partial_merge (c : Cache) (e : DiffEntity)
    (p : DiffPatch) (h : lookupId c e.id = some e) :
    lookupId (updateFields c e.id p) e.id = some (applyPatch e p) ∧
    (p.description = none → (applyPatch e p).description = e.description) ∧
    (p.diff = none → (applyPatch e p).diff = e.diff) ∧
    (p.url = none → (applyPatch e p).url = e.url) ∧
    (p.fetchedAt = none → (applyPatch e p).fetchedAt = e.fetchedAt) ∧
    (p.summaryDeveloper = none →
      (applyPatch e p).summaryDeveloper = e.summaryDeveloper) ∧
    (p.summaryMarketing = none →
      (applyPatch e p).summaryMarketing = e.summaryMarketing) ∧
    (p.summaryUpdatedAt = none →
      (applyPatch e p).summaryUpdatedAt = e.summaryUpdatedAt) ∧
    (applyPatch e p).id = e.id ∧
    (∀ x, p.summaryDeveloper = some x →
      (applyPatch e p).summaryDeveloper = some x) ∧
    (∀ f ∈ c, f.id ≠ e.id → f ∈ updateFields c e.id p) := by
  refine ⟨lookupId_updateFields c e.id p e h, ?_, ?_, ?_, ?_, ?_, ?_, ?_,
    rfl, ?_, ?_⟩
  · intro hn
    simp [applyPatch, hn]
  · intro hn
    simp [applyPatch, hn]
  · intro hn
    simp [applyPatch, hn]
  · intro hn
    simp [applyPatch, hn]
  · intro hn
    simp [applyPatch, hn]
  · intro hn
    simp [applyPatch, hn]
  · intro hn
    simp [applyPatch, hn]
  · intro x hx
    simp [applyPatch, hx]
  · intro f hf hne
    exact mem_updateFields_of_ne c e.id p f hf hne

/-- Witness for C6: the spec's concrete instance - patching only the
developer note to `x` keeps the existing marketing note `y`. -/
theorem updateFields_partial_merge_witness :
    (applyPatch sampleEntity devOnlyPatch).summaryDeveloper = some "x" ∧
    (applyPatch sampleEntity devOnlyPatch).summaryMarketing = some "y" := by
  have h := updateFields_partial_merge [sampleEntity] sampleEntity
    devOnlyPatch (by decide)
  exact ⟨h.2.2.2.2.2.2.2.2.2.1 "x" rfl, h.2.2.2.2.2.2.1 rfl⟩

/-- Claim C7: `upsertMany` followed by `getAll` returns the upserted
records as given (ids previously absent are inserted, ids previously
present are fully replaced), and every returned record is either one of
the upserted ones or an untouched old record whose id was not upserted -
so no merging of old fields ever happens. -/
theorem upsertMany_getAll (c : Cache) (es : List DiffEntity)
    (hnd : (es.map (fun e => e.id)).Nodup) :
    (∀ e ∈ es, e ∈ getAll (upsertMany c es)) ∧
    (∀ f ∈ getAll (upsertMany c es),
      f ∈ es ∨ (f ∈ c ∧ f.id ∉ es.map (fun e => e.id))) :=
  ⟨fun e he => mem_upsertMany_self c es hnd e he,
    fun f hf => mem_of_mem_upsertMany c es f hf⟩

/-- Witness for C7: replacing a cached record (with summaries) by a
fresh record with the same id: the new record is stored as given. -/
theorem upsertMany_getAll_witness :
    sampleNew ∈ getAll (upsertMany [sampleEntity] [sampleNew]) :=
  (upsertMany_getAll [sampleEntity] [sampleNew] (by decide)).1 sampleNew
    (by decide)

/-- Claim C8: `updateFields` on an id absent from the cache is a no-op
on the cache state (modelled as a total function: no exception is
raised), and the extractor's values never depend on the cache, so a
failed write cannot affect extraction. -/
theorem updateFields_missing_noop (c : Cache) (i : String) (p : DiffPatch)
    (h : ∀ e ∈ c, e.id ≠ i) :
    updateFields c i p = c ∧
    (∀ (st st' : GenState) (ch : List Char),
      st.accumulated = st'.accumulated →
      st.finalDeveloper = st'.finalDeveloper →
      st.finalMarketing = st'.finalMarketing →
      (stepGen i st ch).finalDeveloper = (stepGen i st' ch).finalDeveloper ∧
        (stepGen i st ch).finalMarketing =
          (stepGen i st' ch).finalMarketing) := by
  refine ⟨updateFields_missing c i p h, ?_⟩
  intro st st' ch h1 h2 h3
  constructor
  · show (extract devPat (st.accumulated ++ ch)).getD st.finalDeveloper =
      (extract devPat (st'.accumulated ++ ch)).getD st'.finalDeveloper
    rw [h1, h2]
  · show (extract mktPat (st.accumulated ++ ch)).getD st.finalMarketing =
      (extract mktPat (st'.accumulated ++ ch)).getD st'.finalMarketing
    rw [h1, h3]

/-- Witness for C8: updating id `2` in a cache that only holds id `1`
leaves the cache unchanged. -/
theorem updateFields_missing_noop_witness :
    updateFields [sampleEntity] "2" devOnlyPatch = [sampleEntity] :=
  (updateFields_missing_noop [sampleEntity] "2" devOnlyPatch (by decide)).1

/-- Claim C9 counterexample: the program's reader finds nothing in a
response using the field names claimed by the specification
(`items`/`nextPageToken`/`pageSize`, records with
`diffText`/`sourceUrl`), while a response using the code's names
(`diffs`/`nextPage`/`perPage`, records with `diff`/`url`) parses. -/
theorem api_field_names_cex :
    parseApiResponse specShapedResponse = none ∧
    parseDiffItem specShapedItem = none ∧
    parseApiResponse (responseJson [("1", "d", "t", "u")] none 1 10) =
      some ⟨[⟨"1", "d", "t", "u"⟩], none, 1, 10⟩ := by decide

/-- Claim C9 (amended): the listing response consumed by the program
carries its records in `diffs` (not `items`), its paging state in
`nextPage` (nullable, not `nextPageToken`), `currentPage` and `perPage`
(not `pageSize`), and each record carries `id`, `description`, `diff`
(not `diffText`) and `url` (not `sourceUrl`). -/
theorem api_field_names (recs : List (String × String × String × String))
    (np : Option Int) (cp pp : Int) :
    parseApiResponse (responseJson recs np cp pp) =
      some ⟨recs.map (fun r => ⟨r.1, r.2.1, r.2.2.1, r.2.2.2⟩),
        np, cp, pp⟩ := by
  have h1 : getField (responseJson recs np cp pp) "diffs" =
      some (.arr (recs.map itemJson)) := rfl
  have h2 : getField (responseJson recs np cp pp) "nextPage" =
      some (nullableJson np) := rfl
  have h3 : getField (responseJson recs np cp pp) "currentPage" =
      some (.num cp) := rfl
  have h4 : getField (responseJson recs np cp pp) "perPage" =
      some (.num pp) := rfl
  cases np with
  | none =>
      simp [parseApiResponse, h1, h2, h3, h4, asItems, asInt,
        asNullableInt, nullableJson, parseItems_map]
  | some n =>
      simp [parseApiResponse, h1, h2, h3, h4, asItems, asInt,
        asNullableInt, nullableJson, parseItems_map]

/-- Claim C10: a generation request resets the surfaced values to empty
before any chunk; every partial write writes both summary fields; and
when the first chunk matches only the developer field, that first
partial write stores the empty string into the marketing summary,
replacing a previously cached non-empty marketing note. -/
theorem regen_partial_write (c : Cache) (i : String) (t0 : Nat)
    (e : DiffEntity) (m : String) (ch d : List Char)
    (hfind : lookupId c i = some e)
    (hm : e.summaryMarketing = some m) (hm0 : m ≠ "")
    (hdev : extract devPat ch = some d)
    (hmkt : extract mktPat ch = none) :
    (initGen c t0).uiDeveloper = [] ∧ (initGen c t0).uiMarketing = [] ∧
    (stepGen i (initGen c t0) ch).trace =
      [Event.read ch, Event.write d [] t0 false] ∧
    lookupId (stepGen i (initGen c t0) ch).cache i =
      some { e with
        summaryDeveloper := some (String.mk d)
        summaryMarketing := some ""
        summaryUpdatedAt := some t0 } := by
  have hdv : (extract devPat ([] ++ ch)).getD ([] : List Char) = d := by
    simp [hdev]
  have huiD : (if (extract devPat ([] ++ ch)).getD ([] : List Char) = []
      then ([] : List Char)
      else (extract devPat ([] ++ ch)).getD ([] : List Char)) = d := by
    rw [hdv]
    by_cases hd0 : d = []
    · simp [hd0]
    · simp [hd0]
  have huiM : (if (extract mktPat ([] ++ ch)).getD ([] : List Char) = []
      then ([] : List Char)
      else (extract mktPat ([] ++ ch)).getD ([] : List Char)) = [] := by
    simp [hmkt]
  refine ⟨rfl, rfl, ?_, ?_⟩
  · show [] ++ [Event.read ch,
      Event.write (if (extract devPat ([] ++ ch)).getD [] = [] then []
        else (extract devPat ([] ++ ch)).getD [])
        (if (extract mktPat ([] ++ ch)).getD [] = [] then []
          else (extract mktPat ([] ++ ch)).getD []) t0 false] =
      [Event.read ch, Event.write d [] t0 false]
    rw [huiD, huiM]
    rfl
  · show lookupId (updateFields c i
      (summaryPatch (if (extract devPat ([] ++ ch)).getD [] = [] then []
        else (extract devPat ([] ++ ch)).getD [])
        (if (extract mktPat ([] ++ ch)).getD [] = [] then []
          else (extract mktPat ([] ++ ch)).getD []) t0)) i = _
    rw [huiD, huiM]
    rw [lookupId_updateFields c i (summaryPatch d [] t0) e hfind]
    rfl

/-- Witness for C10: a first chunk `"developer_notes":"Fix` on a cache
whose record holds a non-empty marketing note `y`: the first partial
write stores developer `Fix` and marketing `""`. -/
theorem regen_partial_write_witness :
    lookupId (stepGen "1" (initGen [sampleEntity] 3)
      "\"developer_notes\":\"Fix".data).cache "1" =
      some { sampleEntity with
        summaryDeveloper := some (String.mk "Fix".data)
        summaryMarketing := some ""
        summaryUpdatedAt := some 3 } :=
  (regen_partial_write [sampleEntity] "1" 3 sampleEntity "y"
    "\"developer_notes\":\"Fix".data "Fix".data (by decide) (by decide)
    (by decide) (by decide) (by decide)).2.2.2

end DiffDigest
